import Mathlib

/-!
Shallow embedding of `src/main.rs` of the brusque repository: a two-symbol
Turing machine interpreter.  The embedding follows the source closely:

* `Direction`, `Symbol`, `TransitionInfo`, `StateInfo`, `Transition`,
  `State`, `Tm` mirror the Rust types of the same names.
* The pest grammar produces, for each state block, an optional START marker,
  a name, and two transition lines; each transition line carries a leading
  alphabet token, a target name, a direction and a write symbol.  We embed
  the parse tree as `RawTransition` / `RawState` / `Description`, and the
  `process!` actions `_transition` / `_state` as functions on these records.
* `HashMap<String, usize>` is modelled by an association list `NameMap` with
  overwrite-on-insert semantics (`hmInsert`), `len` as list length.
* `make_tm` mirrors the function of the same name (lines 131-193), with the
  Rust `assert!` panics modelled as `Except.error`.
* The execution loop of `main` (lines 206-248) is modelled by `loopIter`
  (one iteration), `engineRun` (fuel-bounded iteration, returning the final
  engine state, the number of iterations executed, and whether the loop hit
  `break`), and `runMain` (the whole post-CLI part of `main`, accumulating
  the printed trace lines as `(step count, state name)` pairs).
-/

namespace Brusque

/-- Rust `enum Direction { L, R, None }`. -/
inductive Direction where
  | L
  | R
  | None
deriving DecidableEq

/-- Rust `enum Symbol { A, B }`; `A` is the blank used to fill grown tape. -/
inductive Symbol where
  | A
  | B
deriving DecidableEq

/-- Rust `struct TransitionInfo` (unresolved transition, string target). -/
structure TransitionInfo where
  next : String
  mov : Direction
  write : Symbol
deriving DecidableEq

/-- Rust `struct StateInfo` (one parsed state block, after `process!`). -/
structure StateInfo where
  on_a : TransitionInfo
  on_b : TransitionInfo
  start : Bool
  name : String
deriving DecidableEq

/-- Rust `struct Transition` (resolved, numeric target). -/
structure Transition where
  next : Nat
  mov : Direction
  write : Symbol
deriving DecidableEq

/-- Rust `struct State`: the two resolved rules of one machine state. -/
structure State where
  on_a : Transition
  on_b : Transition
deriving DecidableEq

/-- Rust `struct Tm`. -/
structure Tm where
  states : List State
  start_state : Option Nat
deriving DecidableEq

/-- One transition line as matched by the grammar rule `transition`:
`tm_alphabet ~ "->" ~ state_name ~ ";" ~ head_direction ~ ";" ~ tm_alphabet`.
The `lead` field is the first `tm_alphabet` token (the symbol nominally being
read); the grammar restricts it to `a` or `b`, hence type `Symbol`. -/
structure RawTransition where
  lead : Symbol
  next : String
  mov : Direction
  write : Symbol
deriving DecidableEq

/-- One state block as matched by the grammar rule `state`:
`start? ~ state_name ~ ":" ~ nl ~ transition ~ transition ~ nl*`. -/
structure RawState where
  start : Bool
  name : String
  line1 : RawTransition
  line2 : RawTransition
deriving DecidableEq

/-- A whole description: the header count and the sequence of state blocks
present in the text.  `make_tm` consumes exactly `header` blocks; it never
checks for input remaining after them. -/
structure Description where
  header : Nat
  blocks : List RawState
deriving DecidableEq

/-- The `process!` action `_transition` (lines 92-107): the leading alphabet
token is matched as `_: tm_alphabet` and discarded. -/
def _transition (t : RawTransition) : TransitionInfo :=
  { next := t.next, mov := t.mov, write := t.write }

/-- The `process!` action `_state` (lines 109-121): the block's first
transition line becomes `on_a`, the second becomes `on_b`, purely by
position. -/
def _state (b : RawState) : StateInfo :=
  { on_a := _transition b.line1, on_b := _transition b.line2,
    start := b.start, name := b.name }

/-- Model of `HashMap<String, usize>`: association list with unique keys
maintained by overwrite-on-insert. -/
abbrev NameMap := List (String × Nat)

/-- `HashMap::insert`: overwrite the value if the key is present, otherwise
add a new entry. -/
def hmInsert : NameMap → String → Nat → NameMap
  | [], k, v => [(k, v)]
  | (k2, v2) :: m, k, v =>
      if k2 = k then (k, v) :: m else (k2, v2) :: hmInsert m k v

/-- `HashMap::get` / index lookup. -/
def hmLookup (m : NameMap) (k : String) : Option Nat :=
  List.lookup k m

/-- `HashMap::len`. -/
def hmSize (m : NameMap) : Nat :=
  m.length

/-- `HashMap::contains_key`. -/
def hmContains (m : NameMap) (k : String) : Bool :=
  (hmLookup m k).isSome

/-- The five reserved entries inserted at lines 141-145. -/
def reservedMap : NameMap :=
  [("HALT", 0), ("ERROR", 1), ("REJECT", 2), ("OUT", 3), ("ACCEPT", 4)]

/-- The five reserved names, as a plain list. -/
def reservedNames : List String :=
  ["HALT", "ERROR", "REJECT", "OUT", "ACCEPT"]

/-- The five reserved self-looping states pushed at lines 147-160:
state `i` maps reading `A` to writing `A`, staying at `i`, no move, and
reading `B` to writing `B`, staying at `i`, no move.  (`name_map.len()` is 5
at that point.) -/
def reservedStates : List State :=
  (List.range 5).map fun i =>
    { on_a := { next := i, mov := Direction.None, write := Symbol.A },
      on_b := { next := i, mov := Direction.None, write := Symbol.B } }

/-- Accumulator of the first pass of `make_tm` (lines 162-172). -/
structure PassOne where
  name_map : NameMap
  infos : List StateInfo
  start_state : Option Nat
deriving DecidableEq

/-- One iteration of the first-pass loop (lines 163-171): process the block,
assign `state_num = name_map.len()`, insert the name (overwriting any
earlier binding), record a start declaration — panicking (`Except.error`)
if a start state was already recorded — and push the info. -/
def passOneStep (acc : PassOne) (b : RawState) : Except String PassOne :=
  let info := _state b
  let state_num := hmSize acc.name_map
  let name_map := hmInsert acc.name_map info.name state_num
  if info.start then
    if acc.start_state.isSome then
      Except.error "second start state"
    else
      Except.ok { name_map := name_map, infos := acc.infos ++ [info],
                  start_state := some state_num }
  else
    Except.ok { name_map := name_map, infos := acc.infos ++ [info],
                start_state := acc.start_state }

/-- The first-pass loop over the consumed blocks. -/
def passOne : List RawState → PassOne → Except String PassOne
  | [], acc => Except.ok acc
  | b :: bs, acc =>
      match passOneStep acc b with
      | Except.error e => Except.error e
      | Except.ok acc2 => passOne bs acc2

/-- The initial accumulator: reserved names pre-inserted, no infos, no start. -/
def initPass : PassOne :=
  { name_map := reservedMap, infos := [], start_state := none }

/-- Resolve one `StateInfo` (lines 175-186): both textual targets are looked
up in the name map; a missing name is the `name_map[&...]` panic. -/
def resolveInfo (m : NameMap) (info : StateInfo) : Except String State :=
  match hmLookup m info.on_a.next, hmLookup m info.on_b.next with
  | some na, some nb =>
      Except.ok { on_a := { next := na, mov := info.on_a.mov, write := info.on_a.write },
                  on_b := { next := nb, mov := info.on_b.mov, write := info.on_b.write } }
  | _, _ => Except.error "unresolved state name"

/-- The second-pass loop (lines 174-187): resolve every info in order. -/
def resolveAll (m : NameMap) : List StateInfo → Except String (List State)
  | [] => Except.ok []
  | i :: is =>
      match resolveInfo m i with
      | Except.error e => Except.error e
      | Except.ok st =>
          match resolveAll m is with
          | Except.error e => Except.error e
          | Except.ok sts => Except.ok (st :: sts)

/-- `make_tm` (lines 131-193).  The `assert!(parser.state())` that fails when
fewer than `header` blocks are present is modelled by the up-front length
check; the function consumes exactly the first `header` blocks and ignores
everything after them (the source never checks that the input is exhausted).
It returns the machine together with the name map (from which the reporting
`state_map` is derived by reversal, see `stateName`). -/
def make_tm (d : Description) : Except String (Tm × NameMap) :=
  if d.blocks.length < d.header then
    Except.error "missing state block"
  else
    match passOne (d.blocks.take d.header) initPass with
    | Except.error e => Except.error e
    | Except.ok p =>
        match resolveAll p.name_map p.infos with
        | Except.error e => Except.error e
        | Except.ok sts =>
            Except.ok ({ states := reservedStates ++ sts,
                         start_state := p.start_state }, p.name_map)

/-- The reverse `state_map` built at lines 189-191: index to name.  The
HashMap iteration order is unspecified, but whenever the map's values are
distinct (every case the program's reporting relies on) the reverse map is
order-independent; we pick the first matching entry. -/
def stateName (m : NameMap) (n : Nat) : String :=
  match m.find? (fun p => p.2 == n) with
  | some p => p.1
  | none => ""

/-- State of the execution loop of `main` (lines 206-219): the tape, the
head index, the current state index, the `BigUint` accumulator
`overall_step_count` (a `Nat`), the bounded counter `step_count` (a `usize`;
it is reset before ever exceeding one billion, so plain `Nat` is exact), and
the trace lines printed so far, as `(count, state name)` pairs. -/
structure EngineState where
  tape : List Symbol
  tape_ix : Nat
  current_state : Nat
  overall : Nat
  step_count : Nat
  trace : List (Nat × String)
deriving DecidableEq

/-- The value printed by the final `println!` (line 248):
`overall_step_count + step_count`. -/
def reportedTotal (s : EngineState) : Nat :=
  s.overall + s.step_count

/-- `tape.resize(tape_ix * 2, Symbol::A)` guarded by `tape_ix >= tape.len()`
(lines 221-223).  When the guard holds, `2 * ix - len` new default cells are
appended, giving length exactly `2 * ix`. -/
def growTape (tape : List Symbol) (ix : Nat) : List Symbol :=
  if tape.length ≤ ix then tape ++ List.replicate (2 * ix - tape.length) Symbol.A
  else tape

/-- Fallback for table indexing; resolved machines never index out of range
(every resolved target is below the state count), where the Rust code would
panic. -/
def dummyState : State :=
  { on_a := { next := 0, mov := Direction.None, write := Symbol.A },
    on_b := { next := 0, mov := Direction.None, write := Symbol.A } }

/-- Fallback block used for positional access to a description's blocks. -/
def dummyBlock : RawState :=
  { start := false, name := "",
    line1 := { lead := Symbol.A, next := "", mov := Direction.None, write := Symbol.A },
    line2 := { lead := Symbol.A, next := "", mov := Direction.None, write := Symbol.A } }

/-- The counter bookkeeping at the top of each loop iteration (lines
214-219): increment `step_count`; if verbose tracing is on or the counter
reached one billion, fold it into the accumulator, print a trace line (with
the pre-transition state's name) and reset the counter.  Tape, head and
current state are untouched. -/
def foldCounters (names : Nat → String) (verbose : Bool)
    (s : EngineState) : EngineState :=
  if verbose || (s.step_count + 1) % 1000000000 == 0 then
    { s with overall := s.overall + (s.step_count + 1), step_count := 0,
             trace := s.trace ++ [(s.overall + (s.step_count + 1), names s.current_state)] }
  else
    { s with step_count := s.step_count + 1 }

/-- The symbol read at the head, after on-demand growth (lines 221-226). -/
def readSym (s : EngineState) : Symbol :=
  (growTape s.tape s.tape_ix).getD s.tape_ix Symbol.A

/-- The transition rule looked up for this iteration (lines 225-230):
`on_a` if the symbol read is `A`, `on_b` otherwise. -/
def stepRule (tm : Tm) (s : EngineState) : Transition :=
  if readSym s = Symbol.A then (tm.states.getD s.current_state dummyState).on_a
  else (tm.states.getD s.current_state dummyState).on_b

/-- Head movement (lines 239-246).  Left moves use saturating `Nat`
subtraction; the source only debug-asserts `tape_ix > 0` there and no claim
concerns that underflow case. -/
def applyMove : Direction → Nat → Nat
  | Direction.L, ix => ix - 1
  | Direction.R, ix => ix + 1
  | Direction.None, ix => ix

/-- The engine state after the write and state update of one iteration
(lines 232-233): counters folded, the rule's symbol written at the head,
the current state set to the rule's target — head not yet moved. -/
def writeAndSet (tm : Tm) (names : Nat → String) (verbose : Bool)
    (s : EngineState) : EngineState :=
  { foldCounters names verbose s with
    tape := (growTape s.tape s.tape_ix).set s.tape_ix (stepRule tm s).write,
    current_state := (stepRule tm s).next }

/-- One iteration of the `loop` of `main` (lines 213-247), in source order:
counter fold, tape growth, read, rule lookup, write, state update; then, if
the new current state is one of the five reserved indices (`< 5`), `break`
(second component `true`) with the head NOT moved; only otherwise is the
rule's head movement applied. -/
def loopIter (tm : Tm) (names : Nat → String) (verbose : Bool)
    (s : EngineState) : EngineState × Bool :=
  if (stepRule tm s).next < 5 then
    (writeAndSet tm names verbose s, true)
  else
    ({ writeAndSet tm names verbose s with
         tape_ix := applyMove (stepRule tm s).mov s.tape_ix }, false)

/-- Fuel-bounded run of the loop.  Returns the final engine state, the exact
number of loop iterations executed, and whether the loop halted (hit
`break`) rather than exhausting the fuel. -/
def engineRun (tm : Tm) (names : Nat → String) (verbose : Bool) :
    Nat → EngineState → EngineState × Nat × Bool
  | 0, s => (s, 0, false)
  | fuel + 1, s =>
      let r := loopIter tm names verbose s
      if r.2 then (r.1, 1, true)
      else
        let r2 := engineRun tm names verbose fuel r.1
        (r2.1, r2.2.1 + 1, r2.2.2)

/-- The engine state at the top of the loop: empty tape, head at index 2,
counters at zero, and the step-0 trace line already printed (line 212). -/
def initEngine (names : Nat → String) (start : Nat) : EngineState :=
  { tape := [], tape_ix := 2, current_state := start,
    overall := 0, step_count := 0, trace := [(0, names start)] }

/-- Outcome of a run of `main` after CLI/file handling. -/
inductive MainResult where
  | buildError (msg : String)
  | noStart
  | running (trace : List (Nat × String))
  | halted (trace : List (Nat × String))
deriving DecidableEq

/-- The trace lines a `MainResult` carries: a build failure or the missing
start state panic happens before the first `println!`, so those outcomes
print nothing. -/
def mainTrace : MainResult → List (Nat × String)
  | MainResult.buildError _ => []
  | MainResult.noStart => []
  | MainResult.running t => t
  | MainResult.halted t => t

/-- The whole post-CLI part of `main` (lines 203-248): build the machine
(`make_tm` panics become `buildError`), take the start state
(`expect("starting state")` becomes `noStart` — both happen before any
trace output), run the loop, and on `break` print the final line
`overall_step_count + step_count` with the terminal state's name. -/
def runMain (d : Description) (verbose : Bool) (fuel : Nat) : MainResult :=
  match make_tm d with
  | Except.error e => MainResult.buildError e
  | Except.ok (tm, nm) =>
      match tm.start_state with
      | none => MainResult.noStart
      | some start =>
          let names := stateName nm
          match engineRun tm names verbose fuel (initEngine names start) with
          | (sf, _, true) =>
              MainResult.halted
                (sf.trace ++ [(reportedTotal sf, names sf.current_state)])
          | (sf, _, false) => MainResult.running sf.trace

/-- Pure recomputation of the name map built by the first pass: the map
evolution (lines 165-166) does not depend on the start bookkeeping. -/
def buildMap : List RawState → NameMap → NameMap
  | [], m => m
  | b :: bs, m => buildMap bs (hmInsert m b.name (hmSize m))

/-- Number of blocks in a list that carry the START marker. -/
def countStarts (bs : List RawState) : Nat :=
  (bs.filter fun b => b.start).length

/-- A target name that resolution will find: a reserved name, or the name of
some consumed block (any block, including later ones — resolution runs only
after all blocks are parsed). -/
def targetDeclared (d : Description) (k : String) : Prop :=
  k ∈ reservedNames ∨ ∃ b ∈ d.blocks.take d.header, b.name = k

instance (d : Description) (k : String) : Decidable (targetDeclared d k) := by
  unfold targetDeclared
  infer_instance

/-- The name map after the first `k` consumed blocks of `d` are processed. -/
def nameMapUpTo (d : Description) (k : Nat) : NameMap :=
  buildMap ((d.blocks.take d.header).take k) reservedMap

/-- The `j`-th consumed block of `d`. -/
def blockAt (d : Description) (j : Nat) : RawState :=
  (d.blocks.take d.header).getD j dummyBlock

/-! ### Lemmas about the HashMap model -/

theorem lookup_cons_eq_if (k k2 : String) (v2 : Nat) (m : NameMap) :
    List.lookup k ((k2, v2) :: m) = if k = k2 then some v2 else List.lookup k m := by
  by_cases h : k = k2
  · simp [List.lookup_cons, h]
  · have hb : (k == k2) = false := by
      simpa using h
    simp [List.lookup_cons, hb, h]

theorem hm_lookup_insert_self (m : NameMap) (k : String) (v : Nat) :
    hmLookup (hmInsert m k v) k = some v := by
  induction m with
  | nil => simp [hmInsert, hmLookup, lookup_cons_eq_if]
  | cons p m ih =>
      obtain ⟨k2, v2⟩ := p
      by_cases h : k2 = k
      · subst h
        simp [hmInsert, hmLookup, lookup_cons_eq_if]
      · simp only [hmInsert, if_neg h]
        simpa [hmLookup, lookup_cons_eq_if, Ne.symm h] using ih

theorem hm_lookup_insert_ne (m : NameMap) (k k2 : String) (v : Nat)
    (h : k2 ≠ k) : hmLookup (hmInsert m k v) k2 = hmLookup m k2 := by
  induction m with
  | nil => simp [hmInsert, hmLookup, lookup_cons_eq_if, h]
  | cons p m ih =>
      obtain ⟨k3, v3⟩ := p
      by_cases h3 : k3 = k
      · subst h3
        simp [hmInsert, hmLookup, lookup_cons_eq_if, h]
      · simp only [hmInsert, if_neg h3]
        by_cases h4 : k2 = k3
        · subst h4
          simp [hmLookup, lookup_cons_eq_if]
        · simpa [hmLookup, lookup_cons_eq_if, h4] using ih

theorem hm_size_insert_mem (m : NameMap) (k : String) (v : Nat)
    (h : hmContains m k = true) : hmSize (hmInsert m k v) = hmSize m := by
  induction m with
  | nil => simp [hmContains, hmLookup] at h
  | cons p m ih =>
      obtain ⟨k2, v2⟩ := p
      by_cases h2 : k2 = k
      · simp [hmInsert, h2, hmSize]
      · simp only [hmInsert, if_neg h2]
        have h3 : hmContains m k = true := by
          simpa [hmContains, hmLookup, lookup_cons_eq_if, Ne.symm h2] using h
        simpa [hmSize] using ih h3

theorem hm_size_insert_fresh (m : NameMap) (k : String) (v : Nat)
    (h : hmContains m k = false) : hmSize (hmInsert m k v) = hmSize m + 1 := by
  induction m with
  | nil => simp [hmInsert, hmSize]
  | cons p m ih =>
      obtain ⟨k2, v2⟩ := p
      by_cases h2 : k2 = k
      · subst h2
        simp [hmContains, hmLookup, lookup_cons_eq_if] at h
      · simp only [hmInsert, if_neg h2]
        have h3 : hmContains m k = false := by
          simpa [hmContains, hmLookup, lookup_cons_eq_if, Ne.symm h2] using h
        simpa [hmSize] using ih h3

theorem hm_contains_insert (m : NameMap) (k k2 : String) (v : Nat) :
    hmContains (hmInsert m k v) k2 = true ↔ k2 = k ∨ hmContains m k2 = true := by
  by_cases h : k2 = k
  · subst h
    simp [hmContains, hm_lookup_insert_self]
  · simp [hmContains, hm_lookup_insert_ne m k k2 v h, h]

/-! ### Lemmas about the first pass -/

theorem passOne_name_map (bs : List RawState) :
    ∀ (acc p : PassOne), passOne bs acc = Except.ok p →
      p.name_map = buildMap bs acc.name_map := by
  induction bs with
  | nil =>
      intro acc p h
      simp [passOne] at h
      simp [h, buildMap]
  | cons b bs ih =>
      intro acc p h
      simp only [passOne, passOneStep] at h
      by_cases hb : (_state b).start
      · simp only [hb, if_pos] at h
        by_cases hs : acc.start_state.isSome
        · simp [hs] at h
        · simp only [hs, Bool.false_eq_true, if_neg, if_false] at h
          simpa [buildMap, _state] using ih _ _ h
      · simp only [hb, if_neg, if_false] at h
        simpa [buildMap, _state] using ih _ _ h

theorem passOne_infos (bs : List RawState) :
    ∀ (acc p : PassOne), passOne bs acc = Except.ok p →
      p.infos = acc.infos ++ bs.map _state := by
  induction bs with
  | nil =>
      intro acc p h
      simp [passOne] at h
      simp [h]
  | cons b bs ih =>
      intro acc p h
      simp only [passOne, passOneStep] at h
      by_cases hb : (_state b).start
      · simp only [hb, if_pos] at h
        by_cases hs : acc.start_state.isSome
        · simp [hs] at h
        · simp only [hs, Bool.false_eq_true, if_neg, if_false] at h
          simpa using ih _ _ h
      · simp only [hb, if_neg, if_false] at h
        simpa using ih _ _ h

theorem passOne_start (bs : List RawState) :
    ∀ (acc p : PassOne), passOne bs acc = Except.ok p →
      (p.start_state.isSome = true ↔
        acc.start_state.isSome = true ∨ ∃ b ∈ bs, b.start = true) := by
  induction bs with
  | nil =>
      intro acc p h
      simp [passOne] at h
      simp [h]
  | cons b bs ih =>
      intro acc p h
      simp only [passOne, passOneStep] at h
      by_cases hb : (_state b).start
      · simp only [hb, if_pos] at h
        by_cases hs : acc.start_state.isSome
        · simp [hs] at h
        · simp only [hs, Bool.false_eq_true, if_neg, if_false] at h
          have := ih _ _ h
          simp only [Option.isSome_some] at this
          rw [this]
          have hbs : b.start = true := by
            simpa [_state] using hb
          simp [hs, hbs]
      · simp only [hb, if_neg, if_false] at h
        have := ih _ _ h
        simp only [this]
        have hbs : ¬ b.start = true := by
          simpa [_state] using hb
        simp [hbs]

theorem passOne_ok_count (bs : List RawState) :
    ∀ (acc p : PassOne), passOne bs acc = Except.ok p →
      countStarts bs + (if acc.start_state.isSome then 1 else 0) ≤ 1 := by
  induction bs with
  | nil =>
      intro acc p h
      by_cases hs : acc.start_state.isSome <;> simp [countStarts, hs]
  | cons b bs ih =>
      intro acc p h
      simp only [passOne, passOneStep] at h
      by_cases hb : (_state b).start
      · simp only [hb, if_pos] at h
        by_cases hs : acc.start_state.isSome
        · simp [hs] at h
        · simp only [hs, Bool.false_eq_true, if_neg, if_false] at h
          have := ih _ _ h
          have hbs : b.start = true := by
            simpa [_state] using hb
          have hcons : countStarts (b :: bs) = countStarts bs + 1 := by
            simp [countStarts, List.filter_cons, hbs]
          have hzero : countStarts bs = 0 := by
            simp only [Option.isSome_some] at this
            simp at this
            omega
          rw [hcons, hzero]
          simp [hs]
      · simp only [hb, if_neg, if_false] at h
        have := ih _ _ h
        have hbs : ¬ b.start = true := by
          simpa [_state] using hb
        simp only [countStarts, List.filter_cons] at *
        simp only [hbs, if_neg, if_false]
        simpa using this

theorem passOne_ok_of_count (bs : List RawState) :
    ∀ (acc : PassOne),
      (acc.start_state.isSome = true → countStarts bs = 0) →
      countStarts bs ≤ 1 →
      ∃ p, passOne bs acc = Except.ok p := by
  induction bs with
  | nil =>
      intro acc _ _
      exact ⟨acc, rfl⟩
  | cons b bs ih =>
      intro acc h0 h1
      simp only [passOne, passOneStep]
      by_cases hb : (_state b).start
      · have hbs : b.start = true := by
          simpa [_state] using hb
        have hs : acc.start_state.isSome = false := by
          cases hsome : acc.start_state.isSome
          · rfl
          · exfalso
            have := h0 hsome
            simp [countStarts, List.filter_cons, hbs] at this
        simp only [hb, if_pos, hs, Bool.false_eq_true, if_neg, if_false]
        apply ih
        · intro _
          have : countStarts (b :: bs) = countStarts bs + 1 := by
            simp [countStarts, List.filter_cons, hbs]
          omega
        · have : countStarts (b :: bs) = countStarts bs + 1 := by
            simp [countStarts, List.filter_cons, hbs]
          omega
      · have hbs : ¬ b.start = true := by
          simpa [_state] using hb
        have hcount : countStarts (b :: bs) = countStarts bs := by
          simp [countStarts, List.filter_cons, hbs]
        simp only [hb, if_neg, if_false]
        apply ih
        · intro hc
          rw [← hcount]
          exact h0 (by simpa using hc)
        · omega

/-! ### Lemmas about `buildMap` -/

theorem buildMap_append (l1 l2 : List RawState) :
    ∀ m, buildMap (l1 ++ l2) m = buildMap l2 (buildMap l1 m) := by
  induction l1 with
  | nil => intro m; simp [buildMap]
  | cons b bs ih => intro m; simp [buildMap, ih]

theorem buildMap_contains (bs : List RawState) :
    ∀ (m : NameMap) (k : String),
      hmContains (buildMap bs m) k = true ↔
        hmContains m k = true ∨ ∃ b ∈ bs, b.name = k := by
  induction bs with
  | nil =>
      intro m k
      simp [buildMap]
  | cons b bs ih =>
      intro m k
      simp only [buildMap]
      rw [ih]
      rw [hm_contains_insert]
      constructor
      · rintro ((h | h) | h)
        · exact Or.inr ⟨b, by simp, h.symm⟩
        · exact Or.inl h
        · obtain ⟨b2, hb2, he⟩ := h
          exact Or.inr ⟨b2, by simp [hb2], he⟩
      · rintro (h | ⟨b2, hb2, he⟩)
        · exact Or.inl (Or.inr h)
        · rcases List.mem_cons.mp hb2 with h2 | h2
          · subst h2
            exact Or.inl (Or.inl he.symm)
          · exact Or.inr ⟨b2, h2, he⟩

theorem buildMap_preserve (bs : List RawState) :
    ∀ (m : NameMap) (k : String), (∀ b ∈ bs, b.name ≠ k) →
      hmLookup (buildMap bs m) k = hmLookup m k := by
  induction bs with
  | nil => intro m k _; simp [buildMap]
  | cons b bs ih =>
      intro m k h
      simp only [buildMap]
      rw [ih _ _ fun b2 hb2 => h b2 (by simp [hb2])]
      exact hm_lookup_insert_ne _ _ _ _ fun he => h b (by simp) (he ▸ rfl)

theorem buildMap_fresh_lookup (bs : List RawState) :
    ∀ (m : NameMap),
      (bs.map RawState.name).Nodup →
      (∀ b ∈ bs, hmContains m b.name = false) →
      ∀ j, j < bs.length →
        hmLookup (buildMap bs m) ((bs.getD j dummyBlock).name) =
          some (hmSize m + j) := by
  induction bs with
  | nil =>
      intro m _ _ j hj
      simp at hj
  | cons b bs ih =>
      intro m hnodup hfresh j hj
      simp only [List.map_cons, List.nodup_cons] at hnodup
      obtain ⟨hnotin, hnodup2⟩ := hnodup
      have hfreshb : hmContains m b.name = false := hfresh b (by simp)
      have hins : ∀ b2 ∈ bs, hmContains (hmInsert m b.name (hmSize m)) b2.name = false := by
        intro b2 hb2
        have hne : b2.name ≠ b.name := by
          intro he
          exact hnotin (he ▸ List.mem_map_of_mem RawState.name hb2)
        have := hm_lookup_insert_ne m b.name b2.name (hmSize m) hne
        simp only [hmContains, this]
        have := hfresh b2 (by simp [hb2])
        simpa [hmContains] using this
      match j with
      | 0 =>
          simp only [buildMap, List.getD_cons_zero]
          rw [buildMap_preserve bs _ b.name ?later]
          · rw [hm_lookup_insert_self]
            simp
          case later =>
            intro b2 hb2 he
            exact hnotin (he ▸ List.mem_map_of_mem RawState.name hb2)
      | j + 1 =>
          simp only [buildMap, List.getD_cons_succ]
          have hlen : j < bs.length := by
            simpa using Nat.lt_of_succ_lt_succ hj
          have := ih (hmInsert m b.name (hmSize m)) hnodup2 hins j hlen
          rw [this, hm_size_insert_fresh m b.name (hmSize m) hfreshb]
          congr 1
          omega

/-! ### Lemmas about `resolveAll` -/

theorem resolveAll_isOk_iff (m : NameMap) (infos : List StateInfo) :
    (resolveAll m infos).isOk = true ↔
      ∀ i ∈ infos, hmContains m i.on_a.next = true ∧ hmContains m i.on_b.next = true := by
  induction infos with
  | nil => simp [resolveAll, Except.isOk, Except.toBool]
  | cons i is ih =>
      simp only [resolveAll]
      constructor
      · intro h
        intro i2 hi2
        rcases List.mem_cons.mp hi2 with h2 | h2
        · subst h2
          cases ha : hmLookup m i2.on_a.next with
          | none => simp [resolveInfo, ha, Except.isOk, Except.toBool] at h
          | some na =>
              cases hb : hmLookup m i2.on_b.next with
              | none => simp [resolveInfo, ha, hb, Except.isOk, Except.toBool] at h
              | some nb => simp [hmContains, ha, hb]
        · apply (ih.mp ?_) i2 h2
          cases ha : hmLookup m i.on_a.next with
          | none => simp [resolveInfo, ha, Except.isOk, Except.toBool] at h
          | some na =>
              cases hb : hmLookup m i.on_b.next with
              | none => simp [resolveInfo, ha, hb, Except.isOk, Except.toBool] at h
              | some nb =>
                  simp only [resolveInfo, ha, hb] at h
                  cases hr : resolveAll m is with
                  | error e => simp [hr, Except.isOk, Except.toBool] at h
                  | ok sts => simp [hr, Except.isOk, Except.toBool]
      · intro h
        obtain ⟨⟨na, hna⟩, ⟨nb, hnb⟩⟩ :
            (∃ x, hmLookup m i.on_a.next = some x) ∧
            (∃ x, hmLookup m i.on_b.next = some x) := by
          have := h i (by simp)
          constructor
          · simpa [hmContains, Option.isSome_iff_exists] using this.1
          · simpa [hmContains, Option.isSome_iff_exists] using this.2
        have htail : (resolveAll m is).isOk = true :=
          ih.mpr fun i2 hi2 => h i2 (by simp [hi2])
        cases hr : resolveAll m is with
        | error e => simp [hr, Except.isOk, Except.toBool] at htail
        | ok sts => simp [resolveInfo, hna, hnb, hr, Except.isOk, Except.toBool]

theorem resolveAll_length (m : NameMap) (infos : List StateInfo) :
    ∀ sts, resolveAll m infos = Except.ok sts → sts.length = infos.length := by
  induction infos with
  | nil =>
      intro sts h
      simp [resolveAll] at h
      simp [← h]
  | cons i is ih =>
      intro sts h
      simp only [resolveAll] at h
      cases hi : resolveInfo m i with
      | error e => simp [hi] at h
      | ok st =>
          simp only [hi] at h
          cases hr : resolveAll m is with
          | error e => simp [hr] at h
          | ok sts2 =>
              simp only [hr] at h
              cases h
              simp [ih sts2 hr]

/-! ### Characterization of `make_tm` -/

theorem reservedMap_contains (k : String) :
    hmContains reservedMap k = true ↔ k ∈ reservedNames := by
  simp only [hmContains, hmLookup, reservedMap, reservedNames, lookup_cons_eq_if,
    List.lookup_nil]
  split_ifs with h1 h2 h3 h4 h5 <;> simp_all

theorem make_tm_ok_elim (d : Description) (tm : Tm) (nm : NameMap)
    (h : make_tm d = Except.ok (tm, nm)) :
    d.header ≤ d.blocks.length ∧
    ∃ p sts, passOne (d.blocks.take d.header) initPass = Except.ok p ∧
      resolveAll p.name_map p.infos = Except.ok sts ∧
      tm = { states := reservedStates ++ sts, start_state := p.start_state } ∧
      nm = p.name_map := by
  by_cases hlen : d.blocks.length < d.header
  · simp [make_tm, hlen] at h
  · simp only [make_tm, hlen, if_neg, if_false] at h
    cases hp : passOne (d.blocks.take d.header) initPass with
    | error e => simp [hp] at h
    | ok p =>
        simp only [hp] at h
        cases hr : resolveAll p.name_map p.infos with
        | error e => simp [hr] at h
        | ok sts =>
            simp only [hr, Except.ok.injEq, Prod.mk.injEq] at h
            obtain ⟨h1, h2⟩ := h
            exact ⟨by omega, p, sts, rfl, hr, h1.symm, h2.symm⟩

theorem make_tm_isOk_iff (d : Description) :
    (make_tm d).isOk = true ↔
      d.header ≤ d.blocks.length ∧
      countStarts (d.blocks.take d.header) ≤ 1 ∧
      ∀ b ∈ d.blocks.take d.header,
        targetDeclared d b.line1.next ∧ targetDeclared d b.line2.next := by
  constructor
  · intro h
    cases hm : make_tm d with
    | error e => simp [hm, Except.isOk, Except.toBool] at h
    | ok r =>
        obtain ⟨tm, nm⟩ := r
        obtain ⟨hlen, p, sts, hp, hr, _, _⟩ := make_tm_ok_elim d tm nm hm
        refine ⟨hlen, ?_, ?_⟩
        · have := passOne_ok_count (d.blocks.take d.header) initPass p hp
          simpa [initPass] using this
        · intro b hb
          have hinfos := passOne_infos (d.blocks.take d.header) initPass p hp
          have hmap := passOne_name_map (d.blocks.take d.header) initPass p hp
          have hok : (resolveAll p.name_map p.infos).isOk = true := by
            simp [hr, Except.isOk, Except.toBool]
          have hall := (resolveAll_isOk_iff p.name_map p.infos).mp hok
          have hmem : _state b ∈ p.infos := by
            rw [hinfos]
            simp only [initPass, List.nil_append]
            exact List.mem_map_of_mem _state hb
          have := hall (_state b) hmem
          have hc1 : hmContains p.name_map b.line1.next = true := this.1
          have hc2 : hmContains p.name_map b.line2.next = true := this.2
          rw [hmap] at hc1 hc2
          simp only [initPass] at hc1 hc2
          constructor
          · have := (buildMap_contains (d.blocks.take d.header) reservedMap b.line1.next).mp hc1
            rcases this with h2 | h2
            · exact Or.inl ((reservedMap_contains _).mp h2)
            · exact Or.inr h2
          · have := (buildMap_contains (d.blocks.take d.header) reservedMap b.line2.next).mp hc2
            rcases this with h2 | h2
            · exact Or.inl ((reservedMap_contains _).mp h2)
            · exact Or.inr h2
  · rintro ⟨hlen, hstart, htargets⟩
    obtain ⟨p, hp⟩ := passOne_ok_of_count (d.blocks.take d.header) initPass
      (by intro h; simp [initPass] at h) hstart
    have hinfos := passOne_infos (d.blocks.take d.header) initPass p hp
    have hmap := passOne_name_map (d.blocks.take d.header) initPass p hp
    have hok : (resolveAll p.name_map p.infos).isOk = true := by
      apply (resolveAll_isOk_iff p.name_map p.infos).mpr
      intro i hi
      rw [hinfos] at hi
      simp only [initPass, List.nil_append] at hi
      obtain ⟨b, hb, rfl⟩ := List.mem_map.mp hi
      have := htargets b hb
      rw [hmap]
      simp only [initPass]
      constructor
      · apply (buildMap_contains (d.blocks.take d.header) reservedMap _).mpr
        rcases this.1 with h2 | h2
        · exact Or.inl ((reservedMap_contains _).mpr h2)
        · exact Or.inr h2
      · apply (buildMap_contains (d.blocks.take d.header) reservedMap _).mpr
        rcases this.2 with h2 | h2
        · exact Or.inl ((reservedMap_contains _).mpr h2)
        · exact Or.inr h2
    cases hr : resolveAll p.name_map p.infos with
    | error e => simp [hr, Except.isOk, Except.toBool] at hok
    | ok sts =>
        have hlen2 : ¬ d.blocks.length < d.header := by omega
        simp [make_tm, hlen2, hp, hr, Except.isOk, Except.toBool]

/-! ### Lemmas about the execution loop -/

theorem foldCounters_total (names : Nat → String) (verbose : Bool)
    (s : EngineState) :
    reportedTotal (foldCounters names verbose s) = reportedTotal s + 1 := by
  unfold foldCounters reportedTotal
  split <;> simp <;> omega

theorem loopIter_total (tm : Tm) (names : Nat → String) (verbose : Bool)
    (s : EngineState) :
    reportedTotal (loopIter tm names verbose s).1 = reportedTotal s + 1 := by
  have hf := foldCounters_total names verbose s
  unfold loopIter
  split <;> simpa [writeAndSet, reportedTotal] using hf

theorem engineRun_total (tm : Tm) (names : Nat → String) (verbose : Bool) :
    ∀ (fuel : Nat) (s : EngineState),
      reportedTotal (engineRun tm names verbose fuel s).1 =
        reportedTotal s + (engineRun tm names verbose fuel s).2.1 := by
  intro fuel
  induction fuel with
  | zero => intro s; simp [engineRun]
  | succ n ih =>
      intro s
      have htot := loopIter_total tm names verbose s
      simp only [engineRun]
      by_cases hh : (loopIter tm names verbose s).2 = true
      · simp [hh, htot]
      · simp only [Bool.not_eq_true] at hh
        simp only [hh, Bool.false_eq_true, if_false]
        have := ih (loopIter tm names verbose s).1
        simp only [this, htot]
        omega

theorem growTape_getD (tape : List Symbol) (ix i : Nat) :
    (growTape tape ix).getD i Symbol.A = tape.getD i Symbol.A := by
  unfold growTape
  split
  · rw [List.getD_eq_getElem?_getD, List.getD_eq_getElem?_getD, List.getElem?_append]
    split
    · rfl
    · rename_i h2
      rw [List.getElem?_replicate]
      have h3 : tape[i]? = none := by
        apply List.getElem?_eq_none
        omega
      rw [h3]
      split <;> rfl
  · rfl

theorem loopIter_tape (tm : Tm) (names : Nat → String) (verbose : Bool)
    (s : EngineState) (i : Nat) (h : i ≠ s.tape_ix) :
    ((loopIter tm names verbose s).1).tape.getD i Symbol.A =
      s.tape.getD i Symbol.A := by
  have key : ((growTape s.tape s.tape_ix).set s.tape_ix
      (stepRule tm s).write).getD i Symbol.A = s.tape.getD i Symbol.A := by
    rw [List.getD_eq_getElem?_getD, List.getElem?_set_ne (fun he => h he.symm),
      ← List.getD_eq_getElem?_getD]
    exact growTape_getD s.tape s.tape_ix i
  unfold loopIter
  split <;> simpa [writeAndSet] using key

theorem foldCounters_tape_ix (names : Nat → String) (verbose : Bool)
    (s : EngineState) : (foldCounters names verbose s).tape_ix = s.tape_ix := by
  unfold foldCounters
  split <;> rfl

/-! ### Concrete inputs used by the claims and their witnesses -/

/-- The end-to-end scenario machine of the spec:
`STATES: 1` / `START q0:` / `a->HALT;-;a` / `b->ACCEPT;-;b`. -/
def descC5 : Description :=
  { header := 1,
    blocks := [
      { start := true, name := "q0",
        line1 := { lead := Symbol.A, next := "HALT",
                   mov := Direction.None, write := Symbol.A },
        line2 := { lead := Symbol.B, next := "ACCEPT",
                   mov := Direction.None, write := Symbol.B } } ] }

/-- A machine used for engine-level witnesses: one user state whose on-A
rule jumps to HALT with a declared (inert) Right move. -/
def tmW : Tm :=
  { states := reservedStates ++
      [{ on_a := { next := 0, mov := Direction.R, write := Symbol.B },
         on_b := { next := 4, mov := Direction.L, write := Symbol.A } }],
    start_state := some 5 }

/-- Trivial reporting table for the engine-level witnesses. -/
def namesW : Nat → String := fun _ => ""

/-! ### The claims -/

/-- Claim C1: in every loop iteration the order is write, state update,
terminal check (halt if the new state is a reserved index 0-4), and only
otherwise head movement; consequently a halting iteration leaves the head
index unchanged, regardless of the rule's declared direction.  The first
conjunct identifies halting with the new current state being reserved; the
second is the head-preservation consequence. -/
theorem halt_check_precedes_move (tm : Tm) (names : Nat → String)
    (verbose : Bool) (s : EngineState) :
    ((loopIter tm names verbose s).2 = true ↔
      ((loopIter tm names verbose s).1).current_state < 5)
    ∧ ((loopIter tm names verbose s).2 = true →
      ((loopIter tm names verbose s).1).tape_ix = s.tape_ix) := by
  unfold loopIter
  split
  · rename_i hlt
    constructor
    · simpa [writeAndSet] using hlt
    · intro _
      show (writeAndSet tm names verbose s).tape_ix = s.tape_ix
      simpa [writeAndSet] using foldCounters_tape_ix names verbose s
  · rename_i hlt
    constructor
    · simpa [writeAndSet] using hlt
    · intro hcontra
      exact absurd hcontra (by simp)

theorem halt_check_precedes_move_witness :
    ((loopIter tmW namesW false (initEngine namesW 5)).1).tape_ix =
      (initEngine namesW 5).tape_ix :=
  (halt_check_precedes_move tmW namesW false (initEngine namesW 5)).2 (by decide)

/-- Claim C2: for every halting run started from the engine's initial state,
the final reported total (`overall_step_count + step_count`, line 248)
equals the exact number of loop iterations executed — the two-tier counter
(folded on every step under verbose, or at the one-billion threshold, and
reset on fold) never loses or double-counts a step. -/
theorem reported_total_counts_iterations (tm : Tm) (names : Nat → String)
    (verbose : Bool) (fuel : Nat) (start : Nat)
    (_halted : (engineRun tm names verbose fuel (initEngine names start)).2.2 = true) :
    reportedTotal (engineRun tm names verbose fuel (initEngine names start)).1
      = (engineRun tm names verbose fuel (initEngine names start)).2.1 := by
  have := engineRun_total tm names verbose fuel (initEngine names start)
  simpa [initEngine, reportedTotal] using this

theorem reported_total_counts_iterations_witness :
    reportedTotal (engineRun tmW namesW false 5 (initEngine namesW 5)).1
      = (engineRun tmW namesW false 5 (initEngine namesW 5)).2.1 :=
  reported_total_counts_iterations tmW namesW false 5 5 (by decide)

/-- Claim C4: whenever the head index reaches or exceeds the tape length,
the tape is grown (new cells `A`) to exactly double the head index — hence
at least double — before the read (`readSym` reads from `growTape` by
definition); and any single step leaves every cell other than the head
position unchanged, so previously written, never-overwritten cells keep
their values across any sequence of steps. -/
theorem tape_growth_and_frame (tm : Tm) (names : Nat → String)
    (verbose : Bool) (s : EngineState) :
    (s.tape.length ≤ s.tape_ix →
      (growTape s.tape s.tape_ix).length = 2 * s.tape_ix
      ∧ (∀ i, i < s.tape.length →
          (growTape s.tape s.tape_ix).getD i Symbol.A = s.tape.getD i Symbol.A)
      ∧ (∀ i, s.tape.length ≤ i → i < 2 * s.tape_ix →
          (growTape s.tape s.tape_ix).getD i Symbol.A = Symbol.A))
    ∧ (∀ i, i ≠ s.tape_ix →
        ((loopIter tm names verbose s).1).tape.getD i Symbol.A =
          s.tape.getD i Symbol.A) := by
  constructor
  · intro hle
    refine ⟨?_, ?_, ?_⟩
    · unfold growTape
      rw [if_pos hle]
      simp only [List.length_append, List.length_replicate]
      omega
    · intro i _
      exact growTape_getD s.tape s.tape_ix i
    · intro i h1 h2
      unfold growTape
      rw [if_pos hle, List.getD_eq_getElem?_getD, List.getElem?_append,
        if_neg (by omega), List.getElem?_replicate, if_pos (by omega)]
      rfl
  · intro i hne
    exact loopIter_tape tm names verbose s i hne

theorem tape_growth_and_frame_witness :
    (growTape (initEngine namesW 5).tape (initEngine namesW 5).tape_ix).length =
      2 * (initEngine namesW 5).tape_ix
    ∧ ((loopIter tmW namesW false (initEngine namesW 5)).1).tape.getD 0 Symbol.A =
      (initEngine namesW 5).tape.getD 0 Symbol.A := by
  have h := tape_growth_and_frame tmW namesW false (initEngine namesW 5)
  exact ⟨(h.1 (by decide)).1, h.2 0 (by decide)⟩

/-- Claim C5: on the description `STATES: 1` / `START q0:` / `a->HALT;-;a` /
`b->ACCEPT;-;b`, run non-verbose, the engine reads `A` on its first
iteration (tape starts all-blank), follows the q0-on-A rule to HALT writing
`A` with no move, and halts immediately; the first trace line is step 0
with state `q0` and the final line is step 1 with state `HALT`.  The second
conjunct checks the built machine: q0 is state 5, its on-A rule targets
HALT (0) writing `A` with no move, and the start index is 5. -/
theorem single_step_halt_scenario :
    runMain descC5 false 5 = MainResult.halted [(0, "q0"), (1, "HALT")]
    ∧ (make_tm descC5).toOption.map
        (fun r => (r.1.states.getD 5 dummyState, r.1.start_state)) =
      some ({ on_a := { next := 0, mov := Direction.None, write := Symbol.A },
              on_b := { next := 4, mov := Direction.None, write := Symbol.B } },
            some 5) := by
  exact ⟨rfl, rfl⟩

/-- Claim C3: a valid description with header count `N` (it builds, some
consumed block declares start, user names are mutually distinct and not
reserved) yields a machine with exactly `N + 5` states and a start index;
each reserved state `i < 5` is a self-loop writing back the symbol read
with no head movement; and user blocks get indices `5, 6, 7, …` in parse
order (block `j` is bound to index `5 + j`, so the first user state gets
exactly 5). -/
theorem make_tm_valid_structure (d : Description) (tm : Tm) (nm : NameMap)
    (hok : make_tm d = Except.ok (tm, nm))
    (hstart : ∃ b ∈ d.blocks.take d.header, b.start = true)
    (hnodup : ((d.blocks.take d.header).map RawState.name).Nodup)
    (hfresh : ∀ b ∈ d.blocks.take d.header, b.name ∉ reservedNames) :
    tm.states.length = d.header + 5
    ∧ tm.start_state.isSome = true
    ∧ (∀ i, i < 5 → tm.states.getD i dummyState =
        { on_a := { next := i, mov := Direction.None, write := Symbol.A },
          on_b := { next := i, mov := Direction.None, write := Symbol.B } })
    ∧ (∀ j, j < d.header →
        hmLookup nm ((d.blocks.take d.header).getD j dummyBlock).name =
          some (5 + j)) := by
  obtain ⟨hlen, p, sts, hp, hr, htm, hnm⟩ := make_tm_ok_elim d tm nm hok
  subst htm
  subst hnm
  have hconsumed : (d.blocks.take d.header).length = d.header := by
    simp only [List.length_take]
    omega
  refine ⟨?_, ?_, ?_, ?_⟩
  · have h1 : sts.length = p.infos.length := resolveAll_length _ _ _ hr
    have h2 : p.infos = initPass.infos ++ (d.blocks.take d.header).map _state :=
      passOne_infos _ _ _ hp
    simp only [List.length_append, h1, h2, initPass, List.nil_append,
      List.length_map, hconsumed, reservedStates, List.length_range]
    omega
  · rw [(passOne_start _ _ _ hp)]
    exact Or.inr hstart
  · intro i hi
    show (reservedStates ++ sts).getD i dummyState = _
    rw [List.getD_append _ _ _ _ (by simpa [reservedStates] using hi)]
    interval_cases i <;> rfl
  · intro j hj
    have hmap : p.name_map = buildMap (d.blocks.take d.header) initPass.name_map :=
      passOne_name_map _ _ _ hp
    have hfresh2 : ∀ b ∈ d.blocks.take d.header,
        hmContains reservedMap b.name = false := by
      intro b hb
      cases hc : hmContains reservedMap b.name
      · rfl
      · exact absurd ((reservedMap_contains _).mp hc) (hfresh b hb)
    have := buildMap_fresh_lookup (d.blocks.take d.header) reservedMap
      hnodup hfresh2 j (by omega)
    show hmLookup p.name_map _ = _
    rw [hmap]
    simpa [initPass, hmSize, reservedMap] using this

/-- A two-state description whose first block forward-references the second
(`q0`'s on-A target is `q1`, declared later). -/
def descFwd : Description :=
  { header := 2,
    blocks := [
      { start := true, name := "q0",
        line1 := { lead := Symbol.A, next := "q1",
                   mov := Direction.R, write := Symbol.B },
        line2 := { lead := Symbol.B, next := "HALT",
                   mov := Direction.None, write := Symbol.A } },
      { start := false, name := "q1",
        line1 := { lead := Symbol.A, next := "HALT",
                   mov := Direction.None, write := Symbol.A },
        line2 := { lead := Symbol.B, next := "HALT",
                   mov := Direction.None, write := Symbol.B } } ] }

/-- The machine `make_tm` builds from `descFwd`. -/
def tmFwd : Tm :=
  { states := reservedStates ++
      [{ on_a := { next := 6, mov := Direction.R, write := Symbol.B },
         on_b := { next := 0, mov := Direction.None, write := Symbol.A } },
       { on_a := { next := 0, mov := Direction.None, write := Symbol.A },
         on_b := { next := 0, mov := Direction.None, write := Symbol.B } }],
    start_state := some 5 }

/-- The name map `make_tm` builds from `descFwd`. -/
def nmFwd : NameMap :=
  reservedMap ++ [("q0", 5), ("q1", 6)]

theorem make_tm_valid_structure_witness :
    tmFwd.states.length = descFwd.header + 5
    ∧ tmFwd.start_state.isSome = true
    ∧ hmLookup nmFwd ((descFwd.blocks.take descFwd.header).getD 0 dummyBlock).name
        = some 5 := by
  have h := make_tm_valid_structure descFwd tmFwd nmFwd (by rfl)
    ⟨descFwd.blocks.getD 0 dummyBlock, by decide, by decide⟩ (by decide) (by decide)
  exact ⟨h.1, h.2.1, by simpa using h.2.2.2 0 (by decide)⟩

/-- A description with header 1 but two state blocks present. -/
def descExtra : Description :=
  { header := 1,
    blocks := [
      { start := true, name := "q0",
        line1 := { lead := Symbol.A, next := "HALT",
                   mov := Direction.None, write := Symbol.A },
        line2 := { lead := Symbol.B, next := "HALT",
                   mov := Direction.None, write := Symbol.B } },
      { start := false, name := "q1",
        line1 := { lead := Symbol.A, next := "HALT",
                   mov := Direction.None, write := Symbol.A },
        line2 := { lead := Symbol.B, next := "HALT",
                   mov := Direction.None, write := Symbol.B } } ] }

/-- A description whose header promises one block but none is present. -/
def descShort : Description :=
  { header := 1, blocks := [] }

/-- Claim C6, counterexample: the claim says the build fails when the
description contains state blocks beyond the `N` consumed; on `descExtra`
(header 1, two blocks) the build in fact succeeds — `make_tm` never checks
for leftover input after consuming `N` blocks. -/
theorem extra_blocks_not_rejected :
    descExtra.header = 1 ∧ descExtra.blocks.length = 2
    ∧ (make_tm descExtra).isOk = true := by
  exact ⟨rfl, rfl, rfl⟩

/-- Claim C6, amended: the build fails when fewer than `N` blocks are
available, and extra blocks beyond the `N` consumed are silently ignored —
the result is exactly that of the truncated description. -/
theorem fewer_blocks_fail_extras_ignored (d : Description) :
    (d.blocks.length < d.header → ∃ e, make_tm d = Except.error e)
    ∧ make_tm d = make_tm { header := d.header, blocks := d.blocks.take d.header } := by
  constructor
  · intro h
    exact ⟨"missing state block", by simp [make_tm, h]⟩
  · by_cases h : d.blocks.length < d.header
    · have h2 : min d.header d.blocks.length < d.header := by omega
      simp [make_tm, h, h2, List.take_take, min_self, List.length_take]
    · have h2 : ¬ min d.header d.blocks.length < d.header := by omega
      simp [make_tm, h, h2, List.take_take, min_self, List.length_take]

theorem fewer_blocks_fail_extras_ignored_witness :
    (∃ e, make_tm descShort = Except.error e)
    ∧ make_tm descExtra =
        make_tm { header := descExtra.header, blocks := descExtra.blocks.take descExtra.header } :=
  ⟨(fewer_blocks_fail_extras_ignored descShort).1 (by decide),
   (fewer_blocks_fail_extras_ignored descExtra).2⟩

/-- A one-block description without a START marker. -/
def descNoStart : Description :=
  { header := 1,
    blocks := [
      { start := false, name := "q0",
        line1 := { lead := Symbol.A, next := "HALT",
                   mov := Direction.None, write := Symbol.A },
        line2 := { lead := Symbol.B, next := "HALT",
                   mov := Direction.None, write := Symbol.B } } ] }

/-- Claim C7: when no state block declares start, the run fails before
execution begins (either a build error, or the missing-start panic raised
when `main` takes the start state — both precede the first `println!`), and
no trace line is ever produced. -/
theorem no_start_no_output (d : Description) (verbose : Bool) (fuel : Nat)
    (h : ∀ b ∈ d.blocks, b.start = false) :
    mainTrace (runMain d verbose fuel) = []
    ∧ ((∃ e, runMain d verbose fuel = MainResult.buildError e)
       ∨ runMain d verbose fuel = MainResult.noStart) := by
  cases hm : make_tm d with
  | error e =>
      refine ⟨?_, Or.inl ⟨e, ?_⟩⟩ <;> simp [runMain, hm, mainTrace]
  | ok r =>
      obtain ⟨tm, nm⟩ := r
      obtain ⟨hlen, p, sts, hp, hr, htm, hnm⟩ := make_tm_ok_elim d tm nm hm
      have hissome : p.start_state.isSome = false := by
        cases hps : p.start_state.isSome
        · rfl
        · exfalso
          rcases (passOne_start _ _ _ hp).mp hps with h1 | ⟨b, hb, hbs⟩
          · simp [initPass] at h1
          · have hfalse := h b (List.take_subset _ _ hb)
            rw [hfalse] at hbs
            exact Bool.false_ne_true hbs
      have hnone : tm.start_state = none := by
        rw [htm]
        cases hps2 : p.start_state with
        | none => rfl
        | some v => rw [hps2] at hissome; simp at hissome
      refine ⟨?_, Or.inr ?_⟩ <;> simp [runMain, hm, hnone, mainTrace]

theorem no_start_no_output_witness :
    mainTrace (runMain descNoStart false 3) = []
    ∧ ((∃ e, runMain descNoStart false 3 = MainResult.buildError e)
       ∨ runMain descNoStart false 3 = MainResult.noStart) :=
  no_start_no_output descNoStart false 3 (by decide)

/-- Claim C8: targets are resolved only after all `N` blocks are parsed —
under the pass-one-succeeds hypotheses (enough blocks, at most one start),
the build succeeds whenever every transition target of every consumed block
is a reserved name or the name of ANY consumed block (forward references
included), and fails with an error whenever some consumed block has a
target that is neither reserved nor declared. -/
theorem resolution_after_all_blocks (d : Description)
    (hlen : d.header ≤ d.blocks.length)
    (hstart : countStarts (d.blocks.take d.header) ≤ 1) :
    ((∀ b ∈ d.blocks.take d.header,
        targetDeclared d b.line1.next ∧ targetDeclared d b.line2.next) →
      (make_tm d).isOk = true)
    ∧ ((∃ b ∈ d.blocks.take d.header,
        ¬ targetDeclared d b.line1.next ∨ ¬ targetDeclared d b.line2.next) →
      ∃ e, make_tm d = Except.error e) := by
  constructor
  · intro h
    exact (make_tm_isOk_iff d).mpr ⟨hlen, hstart, h⟩
  · rintro ⟨b, hb, hbad⟩
    have hno : ¬ (make_tm d).isOk = true := by
      intro hok
      obtain ⟨_, _, h3⟩ := (make_tm_isOk_iff d).mp hok
      have := h3 b hb
      tauto
    cases hm : make_tm d with
    | error e => exact ⟨e, rfl⟩
    | ok r => simp [hm, Except.isOk, Except.toBool] at hno

theorem resolution_after_all_blocks_witness :
    (make_tm descFwd).isOk = true :=
  (resolution_after_all_blocks descFwd (by decide) (by decide)).1 (by decide)

/-- Normalize a transition line's leading alphabet token to `a`. -/
def eraseTransition (t : RawTransition) : RawTransition :=
  { lead := Symbol.A, next := t.next, mov := t.mov, write := t.write }

/-- Normalize both leading tokens of a state block. -/
def eraseBlock (b : RawState) : RawState :=
  { start := b.start, name := b.name,
    line1 := eraseTransition b.line1, line2 := eraseTransition b.line2 }

/-- Normalize every leading alphabet token in a description. -/
def eraseLeads (d : Description) : Description :=
  { header := d.header, blocks := d.blocks.map eraseBlock }

theorem _state_erase (b : RawState) : _state (eraseBlock b) = _state b :=
  rfl

theorem passOne_erase (bs : List RawState) :
    ∀ acc, passOne (bs.map eraseBlock) acc = passOne bs acc := by
  induction bs with
  | nil => intro acc; rfl
  | cons b bs ih =>
      intro acc
      have hstep : passOneStep acc (eraseBlock b) = passOneStep acc b := by
        unfold passOneStep
        rw [_state_erase]
      rw [List.map_cons, passOne, passOne, hstep]
      cases passOneStep acc b with
      | error e => rfl
      | ok acc2 => exact ih acc2

theorem make_tm_erase (d : Description) :
    make_tm (eraseLeads d) = make_tm d := by
  unfold make_tm eraseLeads
  simp only [List.length_map]
  by_cases h : d.blocks.length < d.header
  · simp [h]
  · simp only [h, if_neg, if_false]
    rw [← List.map_take, passOne_erase]

/-- Claim C9: the binding of a block's two transition lines to the on-A and
on-B rule slots is purely positional (`_state` sends `line1` to `on_a` and
`line2` to `on_b`), and the leading symbol token of a transition line is
discarded by `_transition` — two descriptions that agree after normalizing
every leading token (i.e. differ only in those tokens) build identical
machines. -/
theorem lead_symbol_positional (d1 d2 : Description)
    (h : eraseLeads d1 = eraseLeads d2) :
    make_tm d1 = make_tm d2
    ∧ ∀ b : RawState,
        (_state b).on_a = _transition b.line1 ∧ (_state b).on_b = _transition b.line2 := by
  refine ⟨?_, fun b => ⟨rfl, rfl⟩⟩
  rw [← make_tm_erase d1, h, make_tm_erase d2]

/-- `descC5` with both leading symbol tokens flipped (`b` first, `a`
second) — textually a mislabelled block, parsed identically. -/
def descC5Flipped : Description :=
  { header := 1,
    blocks := [
      { start := true, name := "q0",
        line1 := { lead := Symbol.B, next := "HALT",
                   mov := Direction.None, write := Symbol.A },
        line2 := { lead := Symbol.A, next := "ACCEPT",
                   mov := Direction.None, write := Symbol.B } } ] }

theorem lead_symbol_positional_witness :
    make_tm descC5 = make_tm descC5Flipped :=
  (lead_symbol_positional descC5 descC5Flipped (by decide)).1

/-- A three-block description whose second block reuses the first block's
name `q0`. -/
def descDup : Description :=
  { header := 3,
    blocks := [
      { start := true, name := "q0",
        line1 := { lead := Symbol.A, next := "HALT",
                   mov := Direction.None, write := Symbol.A },
        line2 := { lead := Symbol.B, next := "HALT",
                   mov := Direction.None, write := Symbol.B } },
      { start := false, name := "q0",
        line1 := { lead := Symbol.A, next := "HALT",
                   mov := Direction.None, write := Symbol.A },
        line2 := { lead := Symbol.B, next := "HALT",
                   mov := Direction.None, write := Symbol.B } },
      { start := false, name := "q2",
        line1 := { lead := Symbol.A, next := "HALT",
                   mov := Direction.None, write := Symbol.A },
        line2 := { lead := Symbol.B, next := "HALT",
                   mov := Direction.None, write := Symbol.B } } ] }

/-- Claim C10: duplicate state names are not rejected.  If consumed block
`j`'s name is already bound in the name map (reserved, or an earlier user
state) then — provided the build is otherwise valid — the build still
succeeds; the insert for block `j` overwrites the old binding with block
`j`'s index `hmSize (nameMapUpTo d j)` without growing the table
(`hmSize (nameMapUpTo d (j+1)) = hmSize (nameMapUpTo d j)`); hence block
`j + 1` is assigned `hmSize (nameMapUpTo d (j+1))`, the very index block
`j` received — an index already held by another state, breaking the dense
unique-index invariant. -/
theorem duplicate_names_not_rejected (d : Description) (j : Nat)
    (hj : j + 1 < d.header)
    (hlen : d.header ≤ d.blocks.length)
    (hdup : hmContains (nameMapUpTo d j) ((blockAt d j).name) = true)
    (hstart : countStarts (d.blocks.take d.header) ≤ 1)
    (hres : ∀ b ∈ d.blocks.take d.header,
      targetDeclared d b.line1.next ∧ targetDeclared d b.line2.next) :
    (make_tm d).isOk = true
    ∧ hmSize (nameMapUpTo d (j + 1)) = hmSize (nameMapUpTo d j)
    ∧ hmLookup (nameMapUpTo d (j + 1)) ((blockAt d j).name)
        = some (hmSize (nameMapUpTo d j)) := by
  have hjlen : j < (d.blocks.take d.header).length := by
    simp only [List.length_take]
    omega
  have hsucc : nameMapUpTo d (j + 1) =
      hmInsert (nameMapUpTo d j) ((blockAt d j).name) (hmSize (nameMapUpTo d j)) := by
    unfold nameMapUpTo blockAt
    rw [List.take_succ]
    have hsome : (d.blocks.take d.header)[j]?.toList =
        [(d.blocks.take d.header).getD j dummyBlock] := by
      cases hg : (d.blocks.take d.header)[j]? with
      | none =>
          exfalso
          have := List.getElem?_eq_none_iff.mp hg
          omega
      | some x => simp [List.getD_eq_getElem?_getD, hg]
    rw [hsome, buildMap_append]
    simp [buildMap]
  refine ⟨(make_tm_isOk_iff d).mpr ⟨hlen, hstart, hres⟩, ?_, ?_⟩
  · rw [hsucc]
    exact hm_size_insert_mem _ _ _ hdup
  · rw [hsucc]
    exact hm_lookup_insert_self _ _ _

theorem duplicate_names_not_rejected_witness :
    (make_tm descDup).isOk = true
    ∧ hmSize (nameMapUpTo descDup 2) = hmSize (nameMapUpTo descDup 1)
    ∧ hmLookup (nameMapUpTo descDup 2) ((blockAt descDup 1).name)
        = some (hmSize (nameMapUpTo descDup 1)) :=
  duplicate_names_not_rejected descDup 1 (by decide) (by decide) (by decide)
    (by decide) (by decide)

end Brusque
